import Mathlib

/-!
Verification of the belts flow solver (`belts/main.py`).

The solver turns a "flow with lower bounds and node capacities" instance into
a plain max-flow problem: capped nodes are split into `_in`/`_out` facets, a
supersource `s_super` and supersink `t_super` absorb the forced lower-bound
imbalance, and a single max-flow call decides feasibility.  The max-flow /
min-cut computation itself is an external collaborator (networkx); here it is
modelled as an abstract oracle parameter of the solver.

Floats are modelled as exact rationals, `float('inf')` as `Cap.inf`, Python
dicts as association lists with last-write-wins update, and exceptions as
`Except`.
-/

set_option allowUnsafeReducibility true

attribute [semireducible] Rat.add Rat.sub Rat.mul Rat.div Rat.inv Rat.ofScientific

deriving instance DecidableEq for Except

namespace Belts

/-- The fixed numeric tolerance of the solver (`TOLERANCE = 1e-9`). -/
def TOLERANCE : ℚ := 1 / 1000000000

/-- A capacity: a finite rational or `float('inf')`. -/
inductive Cap where
  | inf : Cap
  | fin (q : ℚ) : Cap
deriving DecidableEq

/-- `c < x` for a capacity `c` and a rational `x` (infinity is never smaller). -/
def Cap.ltQ : Cap → ℚ → Bool
  | .inf, _ => false
  | .fin q, x => decide (q < x)

/-- `c - x` for a capacity `c` and a rational `x` (infinity minus anything is infinity). -/
def Cap.subQ : Cap → ℚ → Cap
  | .inf, _ => .inf
  | .fin q, x => .fin (q - x)

/-- `q ≤ c`: the rational `q` fits under the capacity `c`. -/
def Cap.geQ : Cap → ℚ → Bool
  | .inf, _ => true
  | .fin x, q => decide (q ≤ x)

/-- One input edge: `{from, to, lower (default 0), upper (default inf)}`. -/
structure EdgeIn where
  src : String
  dst : String
  lower : ℚ
  upper : Cap
deriving DecidableEq

/-- The parsed input instance of `solve_belts`. -/
structure BeltsInput where
  sources : List (String × ℚ)
  sink : Option String
  edges : List EdgeIn
  node_caps : List (String × ℚ)
deriving DecidableEq

/-- Association-list update with Python-dict semantics: replace the entry for
the key in place, or append a fresh entry. -/
def updEntry {κ β : Type} [DecidableEq κ] : List (κ × β) → κ → β → List (κ × β)
  | [], k, v => [(k, v)]
  | p :: ps, k, v => if p.1 = k then (k, v) :: ps else p :: updEntry ps k v

/-- Association-list lookup (first matching key). -/
def getEntry {κ β : Type} [DecidableEq κ] : List (κ × β) → κ → Option β
  | [], _ => none
  | p :: ps, k => if p.1 = k then some p.2 else getEntry ps k

/-- `lo_demands[k] += d` with `defaultdict(float)` semantics. -/
def updAdd : List (String × ℚ) → String → ℚ → List (String × ℚ)
  | [], k, d => [(k, d)]
  | p :: ps, k, d => if p.1 = k then (p.1, p.2 + d) :: ps else p :: updAdd ps k d

/-- The transformed graph: a keyed list of directed edges with capacities,
mirroring a networkx `DiGraph` where `add_edge` overwrites the capacity. -/
abbrev Graph := List ((String × String) × Cap)

/-- `G.add_edge(u, v, capacity=c)`: overwrite the existing capacity or append. -/
def addEdge (g : Graph) (k : String × String) (c : Cap) : Graph :=
  updEntry g k c

/-- Capacity of the transformed edge `k`, if present. -/
def lookupEdge (g : Graph) (k : String × String) : Option Cap :=
  getEntry g k

/-- The node set of the transformed graph: `s_super`, `t_super` (added by
`add_nodes_from`) and every edge endpoint. -/
def graphNodes (g : Graph) : List String :=
  ("s_super" :: "t_super" :: (g.map (fun e => e.1.1) ++ g.map (fun e => e.1.2))).dedup

/-- The sink's name (only meaningful once validation has passed). -/
def sinkName (d : BeltsInput) : String := d.sink.getD ""

/-- Keys of the `sources` map. -/
def sourceKeys (d : BeltsInput) : List String := d.sources.map (fun p => p.1)

/-- Keys of the `node_caps` map. -/
def capKeys (d : BeltsInput) : List String := d.node_caps.map (fun p => p.1)

/-- `all_nodes`: sources, the sink, every edge endpoint, and every capped node. -/
def allNodes (d : BeltsInput) : List String :=
  (sourceKeys d ++ [sinkName d] ++
    d.edges.foldr (fun e acc => e.src :: e.dst :: acc) [] ++ capKeys d).dedup

/-- A node is split iff it carries a cap and is neither the sink nor a source. -/
def isSplit (d : BeltsInput) (n : String) : Bool :=
  (capKeys d).contains n && !(decide (n = sinkName d)) && !((sourceKeys d).contains n)

/-- `mapped_in[n]`: the inbound facet of `n`. -/
def mappedIn (d : BeltsInput) (n : String) : String :=
  if isSplit d n then n ++ "_in" else n

/-- `mapped_out[n]`: the outbound facet of `n`. -/
def mappedOut (d : BeltsInput) (n : String) : String :=
  if isSplit d n then n ++ "_out" else n

/-- The `node_caps` entries that actually get split. -/
def cappedList (d : BeltsInput) : List (String × ℚ) :=
  d.node_caps.filter (fun p => isSplit d p.1)

/-- `split_nodes`: each capped node with its `_in` and `_out` facet names. -/
def splitNodesList (d : BeltsInput) : List (String × String × String) :=
  (cappedList d).map (fun p => (p.1, p.1 ++ "_in", p.1 ++ "_out"))

/-- One entry of `original_edges`: `((u, v), (mapped u, mapped v), lower)`. -/
abbrev Record := (String × String) × (String × String) × ℚ

/-- The `original_edges` record for one input edge. -/
def mkRecord (d : BeltsInput) (e : EdgeIn) : Record :=
  ((e.src, e.dst), (mappedOut d e.src, mappedIn d e.dst), e.lower)

/-- `cap = upper - lower`, clamped to `0` when below the tolerance. -/
def derivedCap (e : EdgeIn) : Cap :=
  let c := e.upper.subQ e.lower
  if c.ltQ TOLERANCE then .fin 0 else c

/-- State of the edge-processing loop: graph, records, balance accumulator. -/
structure EState where
  g : Graph
  recs : List Record
  bal : List (String × ℚ)
deriving DecidableEq

/-- One iteration of the edge loop: validate the bounds, add the transformed
edge, record the mapping, update the balances. -/
def edgeStep (d : BeltsInput) (st : EState) (e : EdgeIn) : Except String EState :=
  if e.upper.ltQ (e.lower - TOLERANCE) then
    .error "edge has upper bound smaller than lower bound"
  else
    .ok ⟨addEdge st.g (mappedOut d e.src, mappedIn d e.dst) (derivedCap e),
         st.recs ++ [mkRecord d e],
         updAdd (updAdd st.bal e.src (-e.lower)) e.dst e.lower⟩

/-- The edge loop of `build_transformed_graph`. -/
def processEdges (d : BeltsInput) : EState → List EdgeIn → Except String EState
  | st, [] => .ok st
  | st, e :: es =>
    match edgeStep d st e with
    | .error m => .error m
    | .ok st2 => processEdges d st2 es

/-- One iteration over `lo_demands`: inject forced inflow from `s_super` or
drain forced surplus into `t_super`. -/
def demandStep (d : BeltsInput) (acc : Graph × ℚ) (p : String × ℚ) : Graph × ℚ :=
  if TOLERANCE < p.2 then
    (addEdge acc.1 ("s_super", mappedIn d p.1) (.fin p.2), acc.2 + p.2)
  else if p.2 < -TOLERANCE then
    (addEdge acc.1 (mappedOut d p.1, "t_super") (.fin (-p.2)), acc.2)
  else acc

/-- One iteration over `sources`: supply edge from `s_super`. -/
def sourceStep (d : BeltsInput) (acc : Graph × ℚ) (p : String × ℚ) : Graph × ℚ :=
  (addEdge acc.1 ("s_super", mappedOut d p.1) (.fin p.2), acc.2 + p.2)

/-- The `build_data` bookkeeping returned by `build_transformed_graph`. -/
structure BuildData where
  total_expected_flow : ℚ
  total_supply : ℚ
  original_edges : List Record
  split_nodes : List (String × String × String)
  node_map : List (String × String)
deriving DecidableEq

/-- `node_map`: identity on `all_nodes`, plus `s_super`, `t_super`, plus each
facet mapped back to its owner (later writes win, as in a Python dict). -/
def nodeMapList (d : BeltsInput) : List (String × String) :=
  let base := (allNodes d).map (fun n => (n, n))
  let m1 := updEntry (updEntry base "s_super" "s_super") "t_super" "t_super"
  (splitNodesList d).foldl (fun m t => updEntry (updEntry m t.2.1 t.1) t.2.2 t.1) m1

/-- `build_transformed_graph`: validation, node splitting, edge transformation,
supersource/supersink injection, and the final sink edge. -/
def build_transformed_graph (d : BeltsInput) :
    Except String (Graph × BuildData) :=
  match d.sink with
  | none => .error "a sink node must be specified"
  | some s =>
    if s = "" then .error "a sink node must be specified"
    else
      match processEdges d
          ⟨(cappedList d).foldl
              (fun g p => addEdge g (p.1 ++ "_in", p.1 ++ "_out") (.fin p.2)) [],
            [], []⟩ d.edges with
      | .error m => .error m
      | .ok st =>
        let dm := st.bal.foldl (demandStep d) (st.g, 0)
        let sm := d.sources.foldl (sourceStep d) (dm.1, 0)
        let sinkCap := if TOLERANCE < sm.2 then Cap.fin sm.2 else Cap.inf
        let g := addEdge sm.1 (mappedIn d s, "t_super") sinkCap
        .ok (g, ⟨dm.2 + sm.2, sm.2, st.recs, splitNodesList d, nodeMapList d⟩)

/-- The solver's output value. -/
inductive Result where
  | ok (max_flow_per_min : ℚ) (flows : List (String × String × ℚ))
  | infeasible (cut_reachable : List String) (demand_balance : ℚ)
      (tight_nodes : List String) (tight_edges : List (String × String))
  | error (message : String)
deriving DecidableEq

/-- The `status` field of a result. -/
def statusOf : Result → String
  | .ok _ _ => "ok"
  | .infeasible _ _ _ _ => "infeasible"
  | .error _ => "error"

/-- A networkx `flow_dict`: per-source-node map of per-target-node flows. -/
abbrev FlowDict := List (String × List (String × ℚ))

/-- `get_flow(u, v)`: the transformed flow on `(u, v)`, `0` when absent. -/
def getFlow (fd : FlowDict) (u v : String) : ℚ :=
  match getEntry fd u with
  | none => 0
  | some inner =>
    match getEntry inner v with
    | none => 0
    | some q => q

/-- The reconstruction loop of `format_success`: one original flow per record,
omitting entries at or below the tolerance. -/
def reconFlows (fd : FlowDict) : List Record → List (String × String × ℚ)
  | [] => []
  | r :: rs =>
    let f := getFlow fd r.2.1.1 r.2.1.2 + r.2.2
    if TOLERANCE < f then (r.1.1, r.1.2, f) :: reconFlows fd rs
    else reconFlows fd rs

/-- `format_success`: reconstruct the original flows from the transformed ones. -/
def format_success (fd : FlowDict) (oes : List Record) (total_supply : ℚ) :
    Result :=
  .ok total_supply (reconFlows fd oes)

/-- Lexicographic comparison of char lists by code point (Python's `str` order). -/
def listLeB : List Char → List Char → Bool
  | [], _ => true
  | _ :: _, [] => false
  | c :: cs, d :: ds =>
    if c.toNat < d.toNat then true
    else if d.toNat < c.toNat then false
    else listLeB cs ds

/-- `a <= b` on strings, by code points. -/
def strLeB (a b : String) : Bool := listLeB a.data b.data

/-- `sorted(list(set(l)))` on strings. -/
def dedupSort (l : List String) : List String :=
  (l.dedup).insertionSort (fun a b => strLeB a b = true)

/-- The certificate construction of `format_infeasible`, for a given min-cut
partition `(reachable, unreachable)`. -/
def certify (maxFlow totalExpected : ℚ) (bd : BuildData)
    (reachable unreachable : List String) : Result :=
  let cutR := dedupSort (reachable.filterMap (fun n =>
    if n = "s_super" ∨ n = "t_super" then none else getEntry bd.node_map n))
  let tN := dedupSort ((bd.split_nodes.filter (fun t =>
    reachable.contains t.2.1 && unreachable.contains t.2.2)).map (fun t => t.1))
  let tE := bd.original_edges.filterMap (fun r =>
    if reachable.contains r.2.1.1 && unreachable.contains r.2.1.2 then
      some (r.1.1, r.1.2)
    else none)
  .infeasible cutR (totalExpected - maxFlow) tN tE

/-- `format_infeasible`: use the oracle's min-cut partition, falling back to
`reachable = {s_super}` when the cut computation fails. -/
def format_infeasible (g : Graph) (maxFlow totalExpected : ℚ) (bd : BuildData)
    (cutRes : Except Unit (List String × List String)) : Result :=
  match cutRes with
  | .ok p => certify maxFlow totalExpected bd p.1 p.2
  | .error _ =>
    certify maxFlow totalExpected bd ["s_super"]
      ((graphNodes g).filter (fun n => !(decide (n = "s_super"))))

/-- `solve_belts`, instrumented: the result together with a flag recording
whether the max-flow oracle was invoked. -/
def solveCore (fo : Graph → Except Unit (ℚ × FlowDict))
    (co : Graph → Except Unit (List String × List String))
    (d : BeltsInput) : Result × Bool :=
  match build_transformed_graph d with
  | .error m => (.error ("Failed to build graph: " ++ m), false)
  | .ok (g, bd) =>
    if bd.total_expected_flow < TOLERANCE then
      (format_success [] bd.original_edges 0, false)
    else
      match fo g with
      | .error _ => (.error "Max-flow algorithm failed", true)
      | .ok mfd =>
        if mfd.1 < bd.total_expected_flow - TOLERANCE then
          (format_infeasible g mfd.1 bd.total_expected_flow bd (co g), true)
        else
          (format_success mfd.2 bd.original_edges bd.total_supply, true)

/-- `solve_belts(data)` for a given max-flow oracle `fo` and min-cut oracle `co`. -/
def solve_belts (fo : Graph → Except Unit (ℚ × FlowDict))
    (co : Graph → Except Unit (List String × List String))
    (d : BeltsInput) : Result :=
  (solveCore fo co d).1

/-! ### Association-list lemmas -/

theorem getEntry_updEntry_self {κ β : Type} [DecidableEq κ]
    (m : List (κ × β)) (k : κ) (v : β) :
    getEntry (updEntry m k v) k = some v := by
  induction m with
  | nil => simp [updEntry, getEntry]
  | cons p ps ih =>
    by_cases h : p.1 = k
    · simp [updEntry, h, getEntry]
    · simp [updEntry, h, getEntry, ih]

theorem getEntry_updEntry_ne {κ β : Type} [DecidableEq κ]
    (m : List (κ × β)) (k k' : κ) (v : β) (hne : k' ≠ k) :
    getEntry (updEntry m k v) k' = getEntry m k' := by
  have hne' : ¬ (k = k') := fun h => hne h.symm
  induction m with
  | nil => simp [updEntry, getEntry, hne']
  | cons p ps ih =>
    by_cases h : p.1 = k
    · simp only [updEntry, if_pos h, getEntry]
      rw [if_neg hne', if_neg (by rw [h]; exact hne')]
    · simp only [updEntry, if_neg h, getEntry, ih]

/-! ### Characterization of the edge loop -/

/-- The graph accumulated by the edge loop. -/
def edgeFoldG (d : BeltsInput) (g : Graph) (es : List EdgeIn) : Graph :=
  es.foldl (fun g e => addEdge g (mappedOut d e.src, mappedIn d e.dst) (derivedCap e)) g

/-- The balance accumulator of the edge loop (`d` kept for symmetry with
`edgeFoldG`). -/
def edgeFoldBal (_d : BeltsInput) (b : List (String × ℚ)) (es : List EdgeIn) :
    List (String × ℚ) :=
  es.foldl (fun b e => updAdd (updAdd b e.src (-e.lower)) e.dst e.lower) b

theorem processEdges_ok (d : BeltsInput) :
    ∀ (es : List EdgeIn) (st st' : EState),
      processEdges d st es = .ok st' →
      st'.recs = st.recs ++ es.map (mkRecord d) ∧
      st'.g = edgeFoldG d st.g es ∧
      st'.bal = edgeFoldBal d st.bal es := by
  intro es
  induction es with
  | nil =>
    intro st st' h
    simp only [processEdges] at h
    cases h
    simp [edgeFoldG, edgeFoldBal]
  | cons e es ih =>
    intro st st' h
    simp only [processEdges, edgeStep] at h
    by_cases hbad : e.upper.ltQ (e.lower - TOLERANCE) = true
    · rw [if_pos hbad] at h; cases h
    · rw [if_neg hbad] at h
      have h2 := ih _ _ h
      refine ⟨?_, ?_, ?_⟩
      · rw [h2.1]; simp [edgeFoldG, edgeFoldBal]
      · rw [h2.2.1]; simp [edgeFoldG, addEdge]
      · rw [h2.2.2]; simp [edgeFoldBal]

theorem processEdges_error (d : BeltsInput) :
    ∀ (es : List EdgeIn) (st : EState),
      (∃ e ∈ es, e.upper.ltQ (e.lower - TOLERANCE) = true) →
      ∃ m, processEdges d st es = .error m := by
  intro es
  induction es with
  | nil => intro st h; simp at h
  | cons e es ih =>
    intro st h
    simp only [processEdges, edgeStep]
    by_cases hbad : e.upper.ltQ (e.lower - TOLERANCE) = true
    · rw [if_pos hbad]; exact ⟨_, rfl⟩
    · rw [if_neg hbad]
      rcases h with ⟨e', he', hbad'⟩
      rcases List.mem_cons.1 he' with rfl | hmem
      · exact absurd hbad' hbad
      · exact ih _ ⟨e', hmem, hbad'⟩

/-- Shape of a successful build: the final graph ends with the sink edge and
the bookkeeping fields are the loop results. -/
theorem build_ok_shape (d : BeltsInput) (g : Graph) (bd : BuildData)
    (hb : build_transformed_graph d = .ok (g, bd)) :
    ∃ s st,
      d.sink = some s ∧ s ≠ "" ∧
      processEdges d
        ⟨(cappedList d).foldl
            (fun g p => addEdge g (p.1 ++ "_in", p.1 ++ "_out") (.fin p.2)) [],
          [], []⟩ d.edges = .ok st ∧
      (let dm := st.bal.foldl (demandStep d) (st.g, 0)
       let sm := d.sources.foldl (sourceStep d) (dm.1, 0)
       g = addEdge sm.1 (mappedIn d s, "t_super")
             (if TOLERANCE < sm.2 then Cap.fin sm.2 else Cap.inf) ∧
       bd = ⟨dm.2 + sm.2, sm.2, st.recs, splitNodesList d, nodeMapList d⟩) := by
  unfold build_transformed_graph at hb
  split at hb
  · cases hb
  · rename_i s hsk
    split at hb
    · cases hb
    · rename_i hs
      split at hb
      · cases hb
      · rename_i st hpe
        simp only [Except.ok.injEq, Prod.mk.injEq] at hb
        exact ⟨s, st, hsk, hs, hpe, hb.1.symm, hb.2.symm⟩

theorem solveCore_build_ok (fo : Graph → Except Unit (ℚ × FlowDict))
    (co : Graph → Except Unit (List String × List String))
    (d : BeltsInput) (g : Graph) (bd : BuildData)
    (hb : build_transformed_graph d = .ok (g, bd)) :
    solveCore fo co d =
      if bd.total_expected_flow < TOLERANCE then
        (format_success [] bd.original_edges 0, false)
      else
        match fo g with
        | .error _ => (.error "Max-flow algorithm failed", true)
        | .ok mfd =>
          if mfd.1 < bd.total_expected_flow - TOLERANCE then
            (format_infeasible g mfd.1 bd.total_expected_flow bd (co g), true)
          else
            (format_success mfd.2 bd.original_edges bd.total_supply, true) := by
  unfold solveCore
  rw [hb]

theorem statusOf_format_success (fd : FlowDict) (oes : List Record) (ts : ℚ) :
    statusOf (format_success fd oes ts) = "ok" := rfl

theorem statusOf_format_infeasible (g : Graph) (mf te : ℚ) (bd : BuildData)
    (cutRes : Except Unit (List String × List String)) :
    statusOf (format_infeasible g mf te bd cutRes) = "infeasible" := by
  cases cutRes <;> rfl

/-! ### Claim theorems -/

/-- C1: for every instance that builds successfully and is not the trivial
zero-demand case, when the max-flow oracle answers, the solve reports status
"ok" iff the oracle's maximum-flow value is at least `total_expected_flow`
minus the tolerance, and status "infeasible" otherwise. -/
theorem solve_status_iff (fo : Graph → Except Unit (ℚ × FlowDict))
    (co : Graph → Except Unit (List String × List String))
    (d : BeltsInput) (g : Graph) (bd : BuildData) (mf : ℚ) (fd : FlowDict)
    (hb : build_transformed_graph d = .ok (g, bd))
    (hnt : TOLERANCE ≤ bd.total_expected_flow)
    (hf : fo g = .ok (mf, fd)) :
    (statusOf (solve_belts fo co d) = "ok" ↔
      bd.total_expected_flow - TOLERANCE ≤ mf) ∧
    (statusOf (solve_belts fo co d) = "infeasible" ↔
      mf < bd.total_expected_flow - TOLERANCE) := by
  have hlt : ¬ (bd.total_expected_flow < TOLERANCE) := not_lt.2 hnt
  unfold solve_belts
  rw [solveCore_build_ok fo co d g bd hb, if_neg hlt]
  simp only [hf]
  by_cases hc : mf < bd.total_expected_flow - TOLERANCE
  · rw [if_pos hc]
    simp only [statusOf_format_infeasible]
    exact ⟨iff_of_false (by decide) (not_le.2 hc), iff_of_true (by trivial) hc⟩
  · rw [if_neg hc]
    simp only [statusOf_format_success]
    exact ⟨iff_of_true (by trivial) (not_lt.1 hc), iff_of_false (by decide) hc⟩

/-- C2: if the sink is unset, or some edge has a (finite) `upper` strictly
below `lower - ε`, then graph construction aborts with an error, the result
has status "error" whatever the oracles answer, the max-flow oracle is never
invoked (the instrumentation flag stays false), and the result does not
depend on the oracles at all. -/
theorem validation_error_no_flow (fo : Graph → Except Unit (ℚ × FlowDict))
    (co : Graph → Except Unit (List String × List String))
    (d : BeltsInput)
    (h : d.sink = none ∨
      ∃ e ∈ d.edges, ∃ q : ℚ, e.upper = Cap.fin q ∧ q < e.lower - TOLERANCE) :
    (∃ m, build_transformed_graph d = .error m) ∧
    statusOf (solve_belts fo co d) = "error" ∧
    (solveCore fo co d).2 = false ∧
    (∀ fo' co', solve_belts fo co d = solve_belts fo' co' d) := by
  have hbad : d.sink = none ∨
      ∃ e ∈ d.edges, e.upper.ltQ (e.lower - TOLERANCE) = true := by
    rcases h with hs | ⟨e, he, q, hq, hqlt⟩
    · exact Or.inl hs
    · refine Or.inr ⟨e, he, ?_⟩
      rw [hq]
      simpa [Cap.ltQ] using hqlt
  have herr : ∃ m, build_transformed_graph d = .error m := by
    cases hsk : d.sink with
    | none =>
      exact ⟨"a sink node must be specified",
        by simp only [build_transformed_graph, hsk]⟩
    | some s =>
      rcases hbad with hs | hbade
      · rw [hsk] at hs; cases hs
      · by_cases hs : s = ""
        · exact ⟨"a sink node must be specified",
            by simp [build_transformed_graph, hsk, hs]⟩
        · obtain ⟨m, hm⟩ := processEdges_error d d.edges
            ⟨(cappedList d).foldl
                (fun g p => addEdge g (p.1 ++ "_in", p.1 ++ "_out") (.fin p.2)) [],
              [], []⟩ hbade
          refine ⟨m, ?_⟩
          simp [build_transformed_graph, hsk, hs, hm]
  obtain ⟨m, hm⟩ := herr
  refine ⟨⟨m, hm⟩, ?_, ?_, ?_⟩
  · unfold solve_belts solveCore
    simp only [hm]
    rfl
  · unfold solveCore
    simp only [hm]
  · intro fo' co'
    unfold solve_belts solveCore
    simp only [hm]

/-- C8: the infeasibility certifier always produces an infeasibility
certificate whose demand balance is `total_expected_flow - max_flow`, and when
the minimum-cut computation cannot be obtained it falls back to treating only
the supersource as reachable. -/
theorem certifier_always_succeeds (g : Graph) (mf te : ℚ) (bd : BuildData) :
    (∀ cutRes, ∃ cr tn tEdges,
      format_infeasible g mf te bd cutRes = .infeasible cr (te - mf) tn tEdges) ∧
    format_infeasible g mf te bd (.error ()) =
      certify mf te bd ["s_super"]
        ((graphNodes g).filter (fun n => !(decide (n = "s_super")))) := by
  constructor
  · intro cutRes
    cases cutRes with
    | ok p => exact ⟨_, _, _, rfl⟩
    | error u => exact ⟨_, _, _, rfl⟩
  · rfl

/-- C9: the solve is a deterministic function of the input instance — with the
same oracles, equal instances produce equal results, hence the same status and
identical flow values. -/
theorem solve_deterministic (fo : Graph → Except Unit (ℚ × FlowDict))
    (co : Graph → Except Unit (List String × List String))
    (d₁ d₂ : BeltsInput) (h : d₁ = d₂) :
    solve_belts fo co d₁ = solve_belts fo co d₂ ∧
    statusOf (solve_belts fo co d₁) = statusOf (solve_belts fo co d₂) := by
  subst h
  exact ⟨rfl, rfl⟩

/-! ### Concrete instances used as witnesses and counterexamples -/

/-- Scenario A of the spec: one source `A` of supply 10, sink `B`, one edge. -/
def dA : BeltsInput := ⟨[("A", 10)], some "B", [⟨"A", "B", 0, .fin 10⟩], []⟩

/-- The transformed flow assignment networkx returns for `dA`. -/
def fdA : FlowDict :=
  [("s_super", [("A", 10)]), ("A", [("B", 10)]), ("B", [("t_super", 10)])]

/-- Max-flow oracle answering 10 with `fdA` (the correct answer on `dA`). -/
def foA : Graph → Except Unit (ℚ × FlowDict) := fun _ => .ok (10, fdA)

/-- A min-cut oracle that always fails. -/
def coNone : Graph → Except Unit (List String × List String) := fun _ => .error ()

/-- A max-flow oracle that always fails (used to show oracle-independence). -/
def foErr : Graph → Except Unit (ℚ × FlowDict) := fun _ => .error ()

/-- The transformed graph built from `dA`. -/
def gA : Graph :=
  [(("A", "B"), .fin 10), (("s_super", "A"), .fin 10), (("B", "t_super"), .fin 10)]

/-- The bookkeeping built from `dA`. -/
def bdA : BuildData :=
  ⟨10, 10, [(("A", "B"), ("A", "B"), 0)], [],
    [("A", "A"), ("B", "B"), ("s_super", "s_super"), ("t_super", "t_super")]⟩

theorem solve_status_iff_witness :
    (statusOf (solve_belts foA coNone dA) = "ok" ↔
      bdA.total_expected_flow - TOLERANCE ≤ 10) ∧
    (statusOf (solve_belts foA coNone dA) = "infeasible" ↔
      (10 : ℚ) < bdA.total_expected_flow - TOLERANCE) :=
  solve_status_iff foA coNone dA gA bdA 10 fdA rfl (by decide) rfl

/-- An instance with no sink configured. -/
def dNoSink : BeltsInput := ⟨[], none, [], []⟩

theorem validation_error_no_flow_witness :
    (∃ m, build_transformed_graph dNoSink = .error m) ∧
    statusOf (solve_belts foA coNone dNoSink) = "error" ∧
    (solveCore foA coNone dNoSink).2 = false ∧
    solve_belts foA coNone dNoSink = solve_belts foErr coNone dNoSink := by
  have h := validation_error_no_flow foA coNone dNoSink (Or.inl rfl)
  exact ⟨h.1, h.2.1, h.2.2.1, h.2.2.2 foErr coNone⟩

theorem solve_deterministic_witness :
    solve_belts foA coNone dA = solve_belts foA coNone dA ∧
    statusOf (solve_belts foA coNone dA) = statusOf (solve_belts foA coNone dA) :=
  solve_deterministic foA coNone dA dA rfl

/-! ### Lemmas about the reconstruction loop (`format_success`) -/

theorem mem_reconFlows_of_gt (fd : FlowDict) :
    ∀ (oes : List Record) (r : Record), r ∈ oes →
      TOLERANCE < getFlow fd r.2.1.1 r.2.1.2 + r.2.2 →
      (r.1.1, r.1.2, getFlow fd r.2.1.1 r.2.1.2 + r.2.2) ∈ reconFlows fd oes := by
  intro oes
  induction oes with
  | nil => intro r hr; simp at hr
  | cons r' rs ih =>
    intro r hr hgt
    rcases List.mem_cons.1 hr with rfl | hmem
    · simp only [reconFlows]
      rw [if_pos hgt]
      exact List.mem_cons_self _ _
    · simp only [reconFlows]
      by_cases hc : TOLERANCE < getFlow fd r'.2.1.1 r'.2.1.2 + r'.2.2
      · rw [if_pos hc]
        exact List.mem_cons_of_mem _ (ih r hmem hgt)
      · rw [if_neg hc]
        exact ih r hmem hgt

theorem reconFlows_pos (fd : FlowDict) :
    ∀ (oes : List Record) (x : String × String × ℚ),
      x ∈ reconFlows fd oes → TOLERANCE < x.2.2 := by
  intro oes
  induction oes with
  | nil => intro x hx; simp [reconFlows] at hx
  | cons r rs ih =>
    intro x hx
    simp only [reconFlows] at hx
    by_cases hc : TOLERANCE < getFlow fd r.2.1.1 r.2.1.2 + r.2.2
    · rw [if_pos hc] at hx
      rcases List.mem_cons.1 hx with rfl | hmem
      · exact hc
      · exact ih x hmem
    · rw [if_neg hc] at hx
      exact ih x hx

theorem reconFlows_shape (fd : FlowDict) :
    ∀ (oes : List Record) (x : String × String × ℚ), x ∈ reconFlows fd oes →
      ∃ r ∈ oes, x = (r.1.1, r.1.2, getFlow fd r.2.1.1 r.2.1.2 + r.2.2) := by
  intro oes
  induction oes with
  | nil => intro x hx; simp [reconFlows] at hx
  | cons r rs ih =>
    intro x hx
    simp only [reconFlows] at hx
    by_cases hc : TOLERANCE < getFlow fd r.2.1.1 r.2.1.2 + r.2.2
    · rw [if_pos hc] at hx
      rcases List.mem_cons.1 hx with rfl | hmem
      · exact ⟨r, List.mem_cons_self _ _, rfl⟩
      · obtain ⟨r0, hr0, hx0⟩ := ih x hmem
        exact ⟨r0, List.mem_cons_of_mem _ hr0, hx0⟩
    · rw [if_neg hc] at hx
      obtain ⟨r0, hr0, hx0⟩ := ih x hx
      exact ⟨r0, List.mem_cons_of_mem _ hr0, hx0⟩

/-- C3: on success, each recorded original edge is reported with flow equal to
the transformed-edge flow plus its lower bound, it appears in the output iff
that value exceeds the tolerance, and every reported entry arises this way
from some record. -/
theorem format_success_per_edge (fd : FlowDict) (oes : List Record) (ts : ℚ)
    (u v um vm : String) (lo : ℚ) (h : ((u, v), (um, vm), lo) ∈ oes) :
    format_success fd oes ts = .ok ts (reconFlows fd oes) ∧
    ((u, v, getFlow fd um vm + lo) ∈ reconFlows fd oes ↔
      TOLERANCE < getFlow fd um vm + lo) ∧
    (∀ x ∈ reconFlows fd oes,
      ∃ r ∈ oes, x = (r.1.1, r.1.2, getFlow fd r.2.1.1 r.2.1.2 + r.2.2)) := by
  refine ⟨rfl, ⟨?_, ?_⟩, reconFlows_shape fd oes⟩
  · intro hmem
    exact reconFlows_pos fd oes _ hmem
  · intro hgt
    exact mem_reconFlows_of_gt fd oes ((u, v), (um, vm), lo) h hgt

/-- A one-record `original_edges` table with lower bound 2. -/
def oesW : List Record := [(("A", "B"), ("A", "B"), 2)]

/-- A flow dict carrying 3 units on the transformed edge `A -> B`. -/
def fdW : FlowDict := [("A", [("B", 3)])]

theorem format_success_per_edge_witness :
    format_success fdW oesW 7 = .ok 7 (reconFlows fdW oesW) ∧
    (("A", "B", getFlow fdW "A" "B" + 2) ∈ reconFlows fdW oesW ↔
      TOLERANCE < getFlow fdW "A" "B" + 2) ∧
    (∀ x ∈ reconFlows fdW oesW,
      ∃ r ∈ oesW, x = (r.1.1, r.1.2, getFlow fdW r.2.1.1 r.2.1.2 + r.2.2)) :=
  format_success_per_edge fdW oesW 7 "A" "B" "A" "B" 2 (by decide)

/-! ### The trivial zero-demand case -/

theorem TOLERANCE_pos : 0 < TOLERANCE := by norm_num [TOLERANCE]

theorem ltQ_false_of_geQ (c : Cap) (h : c.geQ 0 = true) :
    c.ltQ (0 - TOLERANCE) = false := by
  cases c with
  | inf => rfl
  | fin q =>
    simp only [Cap.geQ, decide_eq_true_eq] at h
    simp only [Cap.ltQ, decide_eq_false_iff_not]
    have := TOLERANCE_pos
    intro hcon
    linarith

theorem processEdges_total (d : BeltsInput) :
    ∀ (es : List EdgeIn) (st : EState),
      (∀ e ∈ es, e.upper.ltQ (e.lower - TOLERANCE) = false) →
      ∃ st', processEdges d st es = .ok st' := by
  intro es
  induction es with
  | nil => intro st _; exact ⟨st, rfl⟩
  | cons e es ih =>
    intro st h
    simp only [processEdges, edgeStep, h e (List.mem_cons_self e es), Bool.false_eq_true,
      if_false]
    exact ih _ (fun e' he' => h e' (List.mem_cons_of_mem e he'))

theorem updAdd_zero_mem :
    ∀ (b : List (String × ℚ)) (k : String),
      (∀ p ∈ b, p.2 = 0) → ∀ p ∈ updAdd b k 0, p.2 = 0 := by
  intro b
  induction b with
  | nil =>
    intro k _ p hp
    simp only [updAdd, List.mem_singleton] at hp
    rw [hp]
  | cons q qs ih =>
    intro k h p hp
    simp only [updAdd] at hp
    by_cases hq : q.1 = k
    · rw [if_pos hq] at hp
      rcases List.mem_cons.1 hp with rfl | hmem
      · simp [h q (List.mem_cons_self q qs)]
      · exact h p (List.mem_cons_of_mem q hmem)
    · rw [if_neg hq] at hp
      rcases List.mem_cons.1 hp with rfl | hmem
      · exact h p (List.mem_cons_self p qs)
      · exact ih k (fun p' hp' => h p' (List.mem_cons_of_mem q hp')) p hmem

theorem edgeFoldBal_zero (d : BeltsInput) :
    ∀ (es : List EdgeIn) (b : List (String × ℚ)),
      (∀ e ∈ es, e.lower = 0) → (∀ p ∈ b, p.2 = 0) →
      ∀ p ∈ edgeFoldBal d b es, p.2 = 0 := by
  intro es
  induction es with
  | nil => intro b _ hb; simpa [edgeFoldBal] using hb
  | cons e es ih =>
    intro b hes hb
    have he0 : e.lower = 0 := hes e (List.mem_cons_self e es)
    have hb1 : ∀ p ∈ updAdd b e.src (-e.lower), p.2 = 0 := by
      rw [he0, neg_zero]
      exact updAdd_zero_mem b e.src hb
    have hb2 : ∀ p ∈ updAdd (updAdd b e.src (-e.lower)) e.dst e.lower, p.2 = 0 := by
      rw [he0]
      rw [he0] at hb1
      exact updAdd_zero_mem _ e.dst hb1
    intro p hp
    simp only [edgeFoldBal, List.foldl_cons] at hp
    exact ih _ (fun e' he' => hes e' (List.mem_cons_of_mem e he')) hb2 p hp

theorem demandFold_id (d : BeltsInput) :
    ∀ (b : List (String × ℚ)) (g : Graph) (q : ℚ),
      (∀ p ∈ b, p.2 = 0) → b.foldl (demandStep d) (g, q) = (g, q) := by
  intro b
  induction b with
  | nil => intro g q _; rfl
  | cons p ps ih =>
    intro g q h
    have hp0 : p.2 = 0 := h p (List.mem_cons_self p ps)
    have h1 : ¬ (TOLERANCE < p.2) := by rw [hp0]; exact not_lt.2 (le_of_lt TOLERANCE_pos)
    have h2 : ¬ (p.2 < -TOLERANCE) := by
      rw [hp0]
      have := TOLERANCE_pos
      intro hcon
      linarith
    simp only [List.foldl_cons, demandStep, if_neg h1, if_neg h2]
    exact ih g q (fun p' hp' => h p' (List.mem_cons_of_mem p hp'))

theorem getFlow_nil (u v : String) : getFlow [] u v = 0 := rfl

theorem reconFlows_nil_lo_zero :
    ∀ (oes : List Record), (∀ r ∈ oes, r.2.2 = 0) → reconFlows [] oes = [] := by
  intro oes
  induction oes with
  | nil => intro _; rfl
  | cons r rs ih =>
    intro h
    have h0 : getFlow [] r.2.1.1 r.2.1.2 + r.2.2 = 0 := by
      rw [getFlow_nil, h r (List.mem_cons_self r rs), add_zero]
    simp only [reconFlows, h0]
    rw [if_neg (not_lt.2 (le_of_lt TOLERANCE_pos))]
    exact ih (fun r' hr' => h r' (List.mem_cons_of_mem r hr'))

/-- Equation for a successful build in terms of the edge-loop result. -/
theorem build_ok_eq (d : BeltsInput) (s : String)
    (hsk : d.sink = some s) (hne : s ≠ "") (st : EState)
    (hpe : processEdges d
      ⟨(cappedList d).foldl
          (fun g p => addEdge g (p.1 ++ "_in", p.1 ++ "_out") (.fin p.2)) [],
        [], []⟩ d.edges = .ok st) :
    build_transformed_graph d =
      .ok (addEdge (d.sources.foldl (sourceStep d)
              ((st.bal.foldl (demandStep d) (st.g, 0)).1, 0)).1
            (mappedIn d s, "t_super")
            (if TOLERANCE < (d.sources.foldl (sourceStep d)
                ((st.bal.foldl (demandStep d) (st.g, 0)).1, 0)).2 then
              Cap.fin (d.sources.foldl (sourceStep d)
                ((st.bal.foldl (demandStep d) (st.g, 0)).1, 0)).2
            else Cap.inf),
          ⟨(st.bal.foldl (demandStep d) (st.g, 0)).2 +
              (d.sources.foldl (sourceStep d)
                ((st.bal.foldl (demandStep d) (st.g, 0)).1, 0)).2,
            (d.sources.foldl (sourceStep d)
              ((st.bal.foldl (demandStep d) (st.g, 0)).1, 0)).2,
            st.recs, splitNodesList d, nodeMapList d⟩) := by
  simp [build_transformed_graph, hsk, hne, hpe]

/-- C7: with no sources and all lower bounds zero, the build succeeds with
`total_expected_flow` below the tolerance, and the solve short-circuits
without invoking the max-flow oracle, reporting `ok` with zero max flow and
no flows. -/
theorem trivial_zero_demand (fo : Graph → Except Unit (ℚ × FlowDict))
    (co : Graph → Except Unit (List String × List String))
    (d : BeltsInput) (s : String)
    (hsk : d.sink = some s) (hne : s ≠ "") (hsrc : d.sources = [])
    (hlo : ∀ e ∈ d.edges, e.lower = 0 ∧ e.upper.geQ 0 = true) :
    (∃ g bd, build_transformed_graph d = .ok (g, bd) ∧
      bd.total_expected_flow < TOLERANCE) ∧
    solveCore fo co d = (.ok 0 [], false) := by
  have hnobad : ∀ e ∈ d.edges, e.upper.ltQ (e.lower - TOLERANCE) = false := by
    intro e he
    rw [(hlo e he).1]
    exact ltQ_false_of_geQ e.upper (hlo e he).2
  obtain ⟨st, hpe⟩ := processEdges_total d d.edges
    ⟨(cappedList d).foldl
        (fun g p => addEdge g (p.1 ++ "_in", p.1 ++ "_out") (.fin p.2)) [],
      [], []⟩ hnobad
  have hchar := processEdges_ok d d.edges _ st hpe
  have hbal0 : ∀ p ∈ st.bal, p.2 = 0 := by
    rw [hchar.2.2]
    exact edgeFoldBal_zero d d.edges [] (fun e he => (hlo e he).1) (by simp)
  have hdm : st.bal.foldl (demandStep d) (st.g, 0) = (st.g, 0) :=
    demandFold_id d st.bal st.g 0 hbal0
  have hb := build_ok_eq d s hsk hne st hpe
  rw [hdm, hsrc] at hb
  simp only [List.foldl_nil] at hb
  rw [if_neg (not_lt.2 (le_of_lt TOLERANCE_pos))] at hb
  have hrec0 : ∀ r ∈ st.recs, r.2.2 = 0 := by
    rw [hchar.1]
    simp only [List.nil_append]
    intro r hr
    obtain ⟨e, he, rfl⟩ := List.mem_map.1 hr
    exact (hlo e he).1
  constructor
  · exact ⟨_, _, hb, by norm_num [TOLERANCE]⟩
  · rw [solveCore_build_ok fo co d _ _ hb]
    rw [if_pos (by norm_num [TOLERANCE])]
    unfold format_success
    rw [reconFlows_nil_lo_zero st.recs hrec0]

/-- A trivially feasible instance: no sources, one zero-lower edge, a cap. -/
def dTriv : BeltsInput := ⟨[], some "B", [⟨"A", "B", 0, .fin 5⟩], [("A", 7)]⟩

theorem trivial_zero_demand_witness :
    (∃ g bd, build_transformed_graph dTriv = .ok (g, bd) ∧
      bd.total_expected_flow < TOLERANCE) ∧
    solveCore foA coNone dTriv = (.ok 0 [], false) :=
  trivial_zero_demand foA coNone dTriv "B" rfl (by decide) rfl
    (by intro e he; simp only [dTriv, List.mem_singleton] at he; rw [he]; exact ⟨rfl, rfl⟩)

/-! ### The sink edge capacity (C5) -/

/-- C5 amended: for every successful build, the edge from the sink's in-facet
to the supersink has capacity `total_supply` when `total_supply > ε`, and
unbounded capacity otherwise (in particular, unbounded when the only source
has finite supply 0). -/
theorem sink_edge_capacity (d : BeltsInput) (s : String) (g : Graph)
    (bd : BuildData) (hs : d.sink = some s)
    (hb : build_transformed_graph d = .ok (g, bd)) :
    lookupEdge g (mappedIn d s, "t_super") =
      some (if TOLERANCE < bd.total_supply then Cap.fin bd.total_supply
            else Cap.inf) := by
  obtain ⟨s', st, hsk', hne', hpe, hg, hbd⟩ := build_ok_shape d g bd hb
  have hss : s' = s := by
    rw [hsk'] at hs
    exact Option.some.inj hs
  subst hss
  rw [hg, hbd]
  exact getEntry_updEntry_self _ _ _

/-- The C5 counterexample instance: a single source of finite supply 0. -/
def dCE5 : BeltsInput := ⟨[("A", 0)], some "B", [], []⟩

/-- The capacity of the `in(sink) → t_super` edge of a built instance. -/
def sinkEdgeCap (d : BeltsInput) : Option Cap :=
  match build_transformed_graph d with
  | .ok (g, _) => lookupEdge g (mappedIn d (sinkName d), "t_super")
  | .error _ => none

theorem sink_edge_capacity_ce :
    sinkEdgeCap dCE5 = some Cap.inf ∧ Cap.inf ≠ Cap.fin 0 := by
  constructor
  · rfl
  · decide

/-- The transformed graph built from `dCE5`. -/
def gCE5 : Graph := [(("s_super", "A"), .fin 0), (("B", "t_super"), .inf)]

/-- The bookkeeping built from `dCE5`. -/
def bdCE5 : BuildData :=
  ⟨0, 0, [], [],
    [("A", "A"), ("B", "B"), ("s_super", "s_super"), ("t_super", "t_super")]⟩

theorem sink_edge_capacity_witness :
    lookupEdge gCE5 (mappedIn dCE5 "B", "t_super") =
      some (if TOLERANCE < bdCE5.total_supply then Cap.fin bdCE5.total_supply
            else Cap.inf) :=
  sink_edge_capacity dCE5 "B" gCE5 bdCE5 rfl (by rfl)

/-! ### Order facts about the string comparator -/

theorem listLeB_total : ∀ a b : List Char, listLeB a b = true ∨ listLeB b a = true := by
  intro a
  induction a with
  | nil => intro b; left; rfl
  | cons x xs ih =>
    intro b
    cases b with
    | nil => right; rfl
    | cons y ys =>
      simp only [listLeB]
      by_cases h1 : x.toNat < y.toNat
      · left; rw [if_pos h1]
      · by_cases h2 : y.toNat < x.toNat
        · right; rw [if_pos h2]
        · rw [if_neg h1, if_neg h2, if_neg h2, if_neg h1]
          exact ih ys

theorem listLeB_trans : ∀ a b c : List Char,
    listLeB a b = true → listLeB b c = true → listLeB a c = true := by
  intro a
  induction a with
  | nil => intro b c _ _; rfl
  | cons x xs ih =>
    intro b c hab hbc
    cases b with
    | nil => simp [listLeB] at hab
    | cons y ys =>
      cases c with
      | nil => simp [listLeB] at hbc
      | cons z zs =>
        simp only [listLeB] at hab hbc ⊢
        by_cases h1 : x.toNat < y.toNat
        · by_cases h2 : y.toNat < z.toNat
          · rw [if_pos (by omega)]
          · by_cases h3 : z.toNat < y.toNat
            · rw [if_neg h2, if_pos h3] at hbc
              cases hbc
            · rw [if_pos (by omega)]
        · by_cases h4 : y.toNat < x.toNat
          · rw [if_neg h1, if_pos h4] at hab
            cases hab
          · rw [if_neg h1, if_neg h4] at hab
            by_cases h2 : y.toNat < z.toNat
            · rw [if_pos (by omega)]
            · by_cases h3 : z.toNat < y.toNat
              · rw [if_neg h2, if_pos h3] at hbc
                cases hbc
              · rw [if_neg h2, if_neg h3] at hbc
                rw [if_neg (by omega), if_neg (by omega)]
                exact ih ys zs hab hbc

instance : IsTotal String (fun a b => strLeB a b = true) :=
  ⟨fun a b => listLeB_total a.data b.data⟩

instance : IsTrans String (fun a b => strLeB a b = true) :=
  ⟨fun a b c => listLeB_trans a.data b.data c.data⟩

theorem mem_dedupSort {a : String} {l : List String} :
    a ∈ dedupSort l ↔ a ∈ l := by
  unfold dedupSort
  rw [(List.perm_insertionSort _ _).mem_iff]
  exact List.mem_dedup

theorem dedupSort_sorted (l : List String) :
    (dedupSort l).Pairwise (fun a b => strLeB a b = true ∧ a ≠ b) := by
  have hs : (dedupSort l).Pairwise (fun a b => strLeB a b = true) :=
    List.sorted_insertionSort _ _
  have hn : (dedupSort l).Nodup :=
    ((List.perm_insertionSort _ _).nodup_iff).2 (List.nodup_dedup l)
  exact hs.and hn

/-! ### Shape of an infeasible solve -/

theorem solve_infeasible_shape (fo : Graph → Except Unit (ℚ × FlowDict))
    (co : Graph → Except Unit (List String × List String)) (d : BeltsInput)
    (cr : List String) (db : ℚ) (tn : List String) (te : List (String × String))
    (h : solve_belts fo co d = .infeasible cr db tn te) :
    ∃ g bd mf fd, build_transformed_graph d = .ok (g, bd) ∧
      ¬ (bd.total_expected_flow < TOLERANCE) ∧
      fo g = .ok (mf, fd) ∧ mf < bd.total_expected_flow - TOLERANCE ∧
      ∃ reachable unreachable,
        certify mf bd.total_expected_flow bd reachable unreachable =
          .infeasible cr db tn te := by
  unfold solve_belts at h
  cases hb : build_transformed_graph d with
  | error m =>
    simp only [solveCore, hb] at h
    exact Result.noConfusion h
  | ok p =>
    obtain ⟨g, bd⟩ := p
    simp only [solveCore, hb] at h
    by_cases ht : bd.total_expected_flow < TOLERANCE
    · rw [if_pos ht] at h
      exact Result.noConfusion h
    · rw [if_neg ht] at h
      cases hf : fo g with
      | error u =>
        simp only [hf] at h
        exact Result.noConfusion h
      | ok mfd =>
        obtain ⟨mf, fd⟩ := mfd
        simp only [hf] at h
        by_cases hflt : mf < bd.total_expected_flow - TOLERANCE
        · rw [if_pos hflt] at h
          refine ⟨g, bd, mf, fd, rfl, ht, hf, hflt, ?_⟩
          unfold format_infeasible at h
          cases hco : co g with
          | ok q =>
            rw [hco] at h
            exact ⟨q.1, q.2, h⟩
          | error u =>
            rw [hco] at h
            exact ⟨_, _, h⟩
        · rw [if_neg hflt] at h
          exact Result.noConfusion h

theorem tightEdges_sublist (oes : List Record)
    (reachable unreachable : List String) :
    List.Sublist
      (oes.filterMap (fun r =>
        if reachable.contains r.2.1.1 && unreachable.contains r.2.1.2 then
          some (r.1.1, r.1.2)
        else none))
      (oes.map (fun r => (r.1.1, r.1.2))) := by
  induction oes with
  | nil => exact List.Sublist.refl _
  | cons r rs ih =>
    simp only [List.filterMap_cons, List.map_cons]
    by_cases hp : (reachable.contains r.2.1.1 && unreachable.contains r.2.1.2) = true
    · rw [if_pos hp]
      exact List.Sublist.cons₂ _ ih
    · rw [if_neg hp]
      exact List.Sublist.cons _ ih

/-- C6 amended: on an infeasible result, `cut_reachable` and
`deficit.tight_nodes` are deduplicated and sorted by identifier, while
`deficit.tight_edges` is reported in original input-edge order (a sublist of
the recorded edges), without deduplication or sorting. -/
theorem infeasible_cert_sets (fo : Graph → Except Unit (ℚ × FlowDict))
    (co : Graph → Except Unit (List String × List String)) (d : BeltsInput)
    (cr : List String) (db : ℚ) (tn : List String) (te : List (String × String))
    (h : solve_belts fo co d = .infeasible cr db tn te) :
    cr.Pairwise (fun a b => strLeB a b = true ∧ a ≠ b) ∧
    tn.Pairwise (fun a b => strLeB a b = true ∧ a ≠ b) ∧
    ∃ g bd, build_transformed_graph d = .ok (g, bd) ∧
      List.Sublist te (bd.original_edges.map (fun r => (r.1.1, r.1.2))) := by
  obtain ⟨g, bd, mf, fd, hb, ht, hf, hlt, reachable, unreachable, hc⟩ :=
    solve_infeasible_shape fo co d cr db tn te h
  unfold certify at hc
  simp only [Result.infeasible.injEq] at hc
  obtain ⟨h1, h2, h3, h4⟩ := hc
  refine ⟨?_, ?_, g, bd, hb, ?_⟩
  · rw [← h1]
    exact dedupSort_sorted _
  · rw [← h3]
    exact dedupSort_sorted _
  · rw [← h4]
    exact tightEdges_sublist _ _ _

/-! ### Name hygiene and the node map -/

/-- No original node's facet name collides with the reserved supersource and
supersink names, facet names are unambiguous, and no out-facet coincides with
the in-facet of a capped node.  Python reserves `s_super`/`t_super` and the
`_in`/`_out` suffixes implicitly; these are the instances on which the
back-mapping of the cut is well-defined. -/
def NamesOk (d : BeltsInput) : Prop :=
  (∀ n ∈ allNodes d,
    mappedOut d n ≠ "s_super" ∧ mappedOut d n ≠ "t_super" ∧
    mappedIn d n ≠ "s_super" ∧ mappedIn d n ≠ "t_super") ∧
  (∀ n ∈ allNodes d, ∀ m ∈ allNodes d, mappedOut d n = mappedOut d m → n = m) ∧
  (∀ n ∈ allNodes d, ∀ m ∈ allNodes d, mappedIn d n = mappedIn d m → n = m) ∧
  (∀ n ∈ allNodes d, ∀ m ∈ allNodes d, isSplit d m = true →
    mappedOut d n ≠ mappedIn d m)

instance (d : BeltsInput) : Decidable (NamesOk d) := by
  unfold NamesOk
  infer_instance

theorem endpoints_mem_foldr :
    ∀ (es : List EdgeIn) (e : EdgeIn), e ∈ es →
      e.src ∈ es.foldr (fun e acc => e.src :: e.dst :: acc) [] ∧
      e.dst ∈ es.foldr (fun e acc => e.src :: e.dst :: acc) [] := by
  intro es
  induction es with
  | nil => intro e he; simp at he
  | cons f fs ih =>
    intro e he
    simp only [List.foldr_cons]
    rcases List.mem_cons.1 he with rfl | hmem
    · exact ⟨List.mem_cons_self _ _, List.mem_cons_of_mem _ (List.mem_cons_self _ _)⟩
    · obtain ⟨h1, h2⟩ := ih e hmem
      exact ⟨List.mem_cons_of_mem _ (List.mem_cons_of_mem _ h1),
        List.mem_cons_of_mem _ (List.mem_cons_of_mem _ h2)⟩

theorem edge_endpoints_mem_allNodes (d : BeltsInput) (e : EdgeIn)
    (he : e ∈ d.edges) : e.src ∈ allNodes d ∧ e.dst ∈ allNodes d := by
  obtain ⟨h1, h2⟩ := endpoints_mem_foldr d.edges e he
  unfold allNodes
  rw [List.mem_dedup, List.mem_dedup]
  constructor
  · exact List.mem_append.2 (Or.inl (List.mem_append.2 (Or.inr h1)))
  · exact List.mem_append.2 (Or.inl (List.mem_append.2 (Or.inr h2)))

theorem capKey_mem_allNodes (d : BeltsInput) (n : String)
    (hn : n ∈ capKeys d) : n ∈ allNodes d := by
  unfold allNodes
  rw [List.mem_dedup]
  exact List.mem_append.2 (Or.inr hn)

theorem isSplit_mem_capKeys (d : BeltsInput) (n : String)
    (h : isSplit d n = true) : n ∈ capKeys d := by
  unfold isSplit at h
  simp only [Bool.and_eq_true] at h
  have h1 := h.1.1
  simpa using h1

theorem mem_splitNodesList (d : BeltsInput) (t : String × String × String)
    (ht : t ∈ splitNodesList d) :
    t.1 ∈ allNodes d ∧ isSplit d t.1 = true ∧
    t.2.1 = mappedIn d t.1 ∧ t.2.2 = mappedOut d t.1 := by
  unfold splitNodesList cappedList at ht
  obtain ⟨p, hp, rfl⟩ := List.mem_map.1 ht
  obtain ⟨hpc, hps⟩ := List.mem_filter.1 hp
  have hkey : p.1 ∈ capKeys d := List.mem_map.2 ⟨p, hpc, rfl⟩
  refine ⟨capKey_mem_allNodes d p.1 hkey, hps, ?_, ?_⟩
  · simp [mappedIn, hps]
  · simp [mappedOut, hps]

theorem splitNodesList_mem_of_isSplit (d : BeltsInput) (u : String)
    (hu : isSplit d u = true) :
    (u, u ++ "_in", u ++ "_out") ∈ splitNodesList d := by
  obtain ⟨p, hp, hp1⟩ := List.mem_map.1 (isSplit_mem_capKeys d u hu)
  unfold splitNodesList cappedList
  apply List.mem_map.2
  refine ⟨p, List.mem_filter.2 ⟨hp, ?_⟩, ?_⟩
  · rw [hp1]
    exact hu
  · rw [hp1]

theorem getEntry_map_self :
    ∀ (l : List String) (u : String), u ∈ l →
      getEntry (l.map (fun n => (n, n))) u = some u := by
  intro l
  induction l with
  | nil => intro u hu; simp at hu
  | cons n ns ih =>
    intro u hu
    simp only [List.map_cons, getEntry]
    by_cases h : n = u
    · rw [if_pos h, h]
    · rw [if_neg h]
      rcases List.mem_cons.1 hu with rfl | hmem
      · exact absurd rfl h
      · exact ih u hmem

theorem nodeMapFold_preserve (K u : String) :
    ∀ (L : List (String × String × String)) (m : List (String × String)),
      (∀ t ∈ L, (t.2.1 = K → t.1 = u) ∧ (t.2.2 = K → t.1 = u)) →
      getEntry m K = some u →
      getEntry
        (L.foldl (fun m t => updEntry (updEntry m t.2.1 t.1) t.2.2 t.1) m) K =
        some u := by
  intro L
  induction L with
  | nil => intro m _ hm; exact hm
  | cons t ts ih =>
    intro m hL hm
    simp only [List.foldl_cons]
    apply ih _ (fun t' ht' => hL t' (List.mem_cons_of_mem t ht'))
    by_cases h2 : t.2.2 = K
    · rw [← h2, getEntry_updEntry_self,
        (hL t (List.mem_cons_self t ts)).2 h2]
    · rw [getEntry_updEntry_ne _ _ _ _ (fun hh => h2 hh.symm)]
      by_cases h1 : t.2.1 = K
      · rw [← h1, getEntry_updEntry_self, (hL t (List.mem_cons_self t ts)).1 h1]
      · rw [getEntry_updEntry_ne _ _ _ _ (fun hh => h1 hh.symm)]
        exact hm

theorem nodeMapFold_establish (K u : String) :
    ∀ (L : List (String × String × String)) (m : List (String × String)),
      (∀ t ∈ L, (t.2.1 = K → t.1 = u) ∧ (t.2.2 = K → t.1 = u)) →
      ((∃ t ∈ L, t.2.1 = K ∨ t.2.2 = K) ∨ getEntry m K = some u) →
      getEntry
        (L.foldl (fun m t => updEntry (updEntry m t.2.1 t.1) t.2.2 t.1) m) K =
        some u := by
  intro L
  induction L with
  | nil =>
    intro m _ hdis
    rcases hdis with ⟨t, ht, _⟩ | hm
    · simp at ht
    · exact hm
  | cons t ts ih =>
    intro m hL hdis
    simp only [List.foldl_cons]
    by_cases htouch : t.2.1 = K ∨ t.2.2 = K
    · apply nodeMapFold_preserve K u ts _
        (fun t' ht' => hL t' (List.mem_cons_of_mem t ht'))
      by_cases h2 : t.2.2 = K
      · rw [← h2, getEntry_updEntry_self,
          (hL t (List.mem_cons_self t ts)).2 h2]
      · rcases htouch with h1 | h2'
        · rw [getEntry_updEntry_ne _ _ _ _ (fun hh => h2 hh.symm), ← h1,
            getEntry_updEntry_self, (hL t (List.mem_cons_self t ts)).1 h1]
        · exact absurd h2' h2
    · push_neg at htouch
      apply ih _ (fun t' ht' => hL t' (List.mem_cons_of_mem t ht'))
      rcases hdis with ⟨t', ht', hK⟩ | hm
      · rcases List.mem_cons.1 ht' with rfl | hmem
        · rcases hK with h1 | h2
          · exact absurd h1 htouch.1
          · exact absurd h2 htouch.2
        · exact Or.inl ⟨t', hmem, hK⟩
      · right
        rw [getEntry_updEntry_ne _ _ _ _ (fun hh => htouch.2 hh.symm),
          getEntry_updEntry_ne _ _ _ _ (fun hh => htouch.1 hh.symm)]
        exact hm

/-- Under name hygiene, the node map sends the out-facet of any node of the
instance back to that node. -/
theorem nodeMap_mappedOut (d : BeltsInput) (hn : NamesOk d) (u : String)
    (hu : u ∈ allNodes d) :
    getEntry (nodeMapList d) (mappedOut d u) = some u := by
  obtain ⟨hsup, hinjOut, hinjIn, hcross⟩ := hn
  have hconds : ∀ t ∈ splitNodesList d,
      (t.2.1 = mappedOut d u → t.1 = u) ∧ (t.2.2 = mappedOut d u → t.1 = u) := by
    intro t ht
    obtain ⟨htAll, htSplit, htIn, htOut⟩ := mem_splitNodesList d t ht
    constructor
    · intro hK
      exfalso
      apply hcross u hu t.1 htAll htSplit
      rw [← hK, htIn]
    · intro hK
      apply hinjOut t.1 htAll u hu
      rw [← htOut, hK]
  unfold nodeMapList
  by_cases hsplit : isSplit d u = true
  · apply nodeMapFold_establish _ _ _ _ hconds
    left
    refine ⟨(u, u ++ "_in", u ++ "_out"),
      splitNodesList_mem_of_isSplit d u hsplit, Or.inr ?_⟩
    simp [mappedOut, hsplit]
  · apply nodeMapFold_establish _ _ _ _ hconds
    right
    have hKu : mappedOut d u = u := by simp [mappedOut, hsplit]
    rw [hKu]
    have hus : u ≠ "s_super" := by
      intro hc
      exact (hsup u hu).1 (by rw [hKu, hc])
    have hut : u ≠ "t_super" := by
      intro hc
      exact (hsup u hu).2.1 (by rw [hKu, hc])
    rw [getEntry_updEntry_ne _ _ _ _ hut, getEntry_updEntry_ne _ _ _ _ hus]
    exact getEntry_map_self _ u hu

/-- C4 amended: on every infeasible result, `deficit.demand_balance` exceeds
the tolerance — unconditionally — and, provided no original node identifier
collides with the reserved `s_super`/`t_super` names or a facet name of a
capped node (`NamesOk`), every tight edge's `from` node is contained in
`cut_reachable`. -/
theorem infeasible_tight_from_in_cut (fo : Graph → Except Unit (ℚ × FlowDict))
    (co : Graph → Except Unit (List String × List String)) (d : BeltsInput)
    (cr : List String) (db : ℚ) (tn : List String) (te : List (String × String))
    (h : solve_belts fo co d = .infeasible cr db tn te) :
    TOLERANCE < db ∧ (NamesOk d → ∀ p ∈ te, p.1 ∈ cr) := by
  obtain ⟨g, bd, mf, fd, hb, ht, hf, hlt, reachable, unreachable, hc⟩ :=
    solve_infeasible_shape fo co d cr db tn te h
  unfold certify at hc
  simp only [Result.infeasible.injEq] at hc
  obtain ⟨h1, h2, h3, h4⟩ := hc
  obtain ⟨s, st, hsk, hne, hpe, hg, hbd⟩ := build_ok_shape d g bd hb
  have hoes : bd.original_edges = d.edges.map (mkRecord d) := by
    rw [hbd]
    have hrec := (processEdges_ok d d.edges _ st hpe).1
    simpa using hrec
  have hnm : bd.node_map = nodeMapList d := by rw [hbd]
  constructor
  · rw [← h2]
    linarith
  · intro hn p hp
    rw [← h4] at hp
    obtain ⟨r, hr, hcond⟩ := List.mem_filterMap.1 hp
    by_cases hcc : (reachable.contains r.2.1.1 && unreachable.contains r.2.1.2)
        = true
    · rw [if_pos hcc] at hcond
      obtain rfl := Option.some.inj hcond
      rw [hoes] at hr
      obtain ⟨e, he, rfl⟩ := List.mem_map.1 hr
      have hsrc : e.src ∈ allNodes d := (edge_endpoints_mem_allNodes d e he).1
      have hcont : reachable.contains (mappedOut d e.src) = true :=
        (Bool.and_eq_true _ _ ▸ hcc).1
      have hmem : mappedOut d e.src ∈ reachable := by simpa using hcont
      rw [← h1, mem_dedupSort]
      apply List.mem_filterMap.2
      refine ⟨mappedOut d e.src, hmem, ?_⟩
      rw [if_neg ?_]
      · rw [hnm]
        exact nodeMap_mappedOut d hn e.src hsrc
      · rintro (hcs | hct)
        · exact (hn.1 e.src hsrc).1 hcs
        · exact (hn.1 e.src hsrc).2.1 hct
    · rw [if_neg hcc] at hcond
      cases hcond

/-! ### Flow and cut certificates for the concrete oracle answers -/

/-- Flow on a transformed edge, 0 when unassigned. -/
def flowLookup (f : List ((String × String) × ℚ)) (k : String × String) : ℚ :=
  (getEntry f k).getD 0

/-- Total flow leaving `n`. -/
def outSum (g : Graph) (f : List ((String × String) × ℚ)) (n : String) : ℚ :=
  (g.filter (fun e => e.1.1 == n)).foldl (fun a e => a + flowLookup f e.1) 0

/-- Total flow entering `n`. -/
def inSum (g : Graph) (f : List ((String × String) × ℚ)) (n : String) : ℚ :=
  (g.filter (fun e => e.1.2 == n)).foldl (fun a e => a + flowLookup f e.1) 0

/-- The flow respects capacities, is nonnegative, and is conserved at every
node other than the supersource and supersink. -/
def flowFeasibleB (g : Graph) (f : List ((String × String) × ℚ)) : Bool :=
  g.all (fun e => decide (0 ≤ flowLookup f e.1) && e.2.geQ (flowLookup f e.1)) &&
  (graphNodes g).all (fun n =>
    (n == "s_super") || (n == "t_super") || decide (outSum g f n = inSum g f n))

/-- Net flow out of the supersource. -/
def flowValue (g : Graph) (f : List ((String × String) × ℚ)) : ℚ :=
  outSum g f "s_super" - inSum g f "s_super"

/-- Capacity addition. -/
def capAdd : Cap → Cap → Cap
  | .inf, _ => .inf
  | _, .inf => .inf
  | .fin a, .fin b => .fin (a + b)

/-- Total capacity of the edges leaving the node set `S`. -/
def cutCapacity (g : Graph) (S : List String) : Cap :=
  (g.filter (fun e => S.contains e.1.1 && !(S.contains e.1.2))).foldl
    (fun a e => capAdd a e.2) (.fin 0)

/-! ### C4 counterexample: an original node named `s_super` -/

/-- Scenario B plus an extra original node literally named `s_super`. -/
def dCE4 : BeltsInput :=
  ⟨[("A", 10)], some "B",
    [⟨"A", "B", 0, .fin 5⟩, ⟨"s_super", "B", 0, .fin 3⟩], []⟩

/-- The transformed graph built from `dCE4`. -/
def gCE4 : Graph :=
  [(("A", "B"), .fin 5), (("s_super", "B"), .fin 3),
    (("s_super", "A"), .fin 10), (("B", "t_super"), .fin 10)]

/-- The bookkeeping built from `dCE4`. -/
def bdCE4 : BuildData :=
  ⟨10, 10,
    [(("A", "B"), ("A", "B"), 0), (("s_super", "B"), ("s_super", "B"), 0)], [],
    [("A", "A"), ("s_super", "s_super"), ("B", "B"), ("t_super", "t_super")]⟩

/-- The max flow on `gCE4` is 8 (certified below). -/
def foCE4 : Graph → Except Unit (ℚ × FlowDict) := fun _ => .ok (8, [])

/-- The min cut on `gCE4`: only `s_super` and `A` are residually reachable. -/
def coCE4 : Graph → Except Unit (List String × List String) :=
  fun _ => .ok (["s_super", "A"], ["B", "t_super"])

/-- A maximum flow on `gCE4` achieving value 8. -/
def fCE4 : List ((String × String) × ℚ) :=
  [(("s_super", "A"), 5), (("A", "B"), 5), (("s_super", "B"), 3),
    (("B", "t_super"), 8)]

/-- The oracle answers used for `dCE4` are certified correct: the exhibited
flow is feasible with value 8, and the cut `{s_super, A}` has capacity 8, so
by weak duality 8 is the maximum flow and that cut is minimum. -/
theorem ce4_oracle_certified :
    build_transformed_graph dCE4 = .ok (gCE4, bdCE4) ∧
    flowFeasibleB gCE4 fCE4 = true ∧ flowValue gCE4 fCE4 = 8 ∧
    cutCapacity gCE4 ["s_super", "A"] = .fin 8 := by
  refine ⟨by rfl, by rfl, by decide, by rfl⟩

/-- C4 counterexample: with an original node named `s_super`, the result is
infeasible, a tight edge originates at `s_super`, yet `s_super` is not in
`cut_reachable` — the claim as stated fails on this instance. -/
theorem infeasible_tight_from_in_cut_ce :
    solve_belts foCE4 coCE4 dCE4 =
      .infeasible ["A"] 2 [] [("A", "B"), ("s_super", "B")] ∧
    ("s_super", "B") ∈ [("A", "B"), ("s_super", "B")] ∧
    "s_super" ∉ (["A"] : List String) := by
  refine ⟨by rfl, by decide, by decide⟩

/-! ### C6 counterexample: unsorted tight_edges -/

/-- Two bottleneck edges out of `S`, listed in an order that is not sorted. -/
def dCE6 : BeltsInput :=
  ⟨[("S", 10)], some "T",
    [⟨"S", "C", 0, .fin 4⟩, ⟨"S", "B", 0, .fin 3⟩,
      ⟨"C", "T", 0, .fin 100⟩, ⟨"B", "T", 0, .fin 100⟩], []⟩

/-- The transformed graph built from `dCE6`. -/
def gCE6 : Graph :=
  [(("S", "C"), .fin 4), (("S", "B"), .fin 3), (("C", "T"), .fin 100),
    (("B", "T"), .fin 100), (("s_super", "S"), .fin 10),
    (("T", "t_super"), .fin 10)]

/-- The bookkeeping built from `dCE6`. -/
def bdCE6 : BuildData :=
  ⟨10, 10,
    [(("S", "C"), ("S", "C"), 0), (("S", "B"), ("S", "B"), 0),
      (("C", "T"), ("C", "T"), 0), (("B", "T"), ("B", "T"), 0)], [],
    [("S", "S"), ("C", "C"), ("B", "B"), ("T", "T"),
      ("s_super", "s_super"), ("t_super", "t_super")]⟩

/-- The max flow on `gCE6` is 7 (certified below). -/
def foCE6 : Graph → Except Unit (ℚ × FlowDict) := fun _ => .ok (7, [])

/-- The min cut on `gCE6`: only `s_super` and `S` are residually reachable. -/
def coCE6 : Graph → Except Unit (List String × List String) :=
  fun _ => .ok (["s_super", "S"], ["C", "B", "T", "t_super"])

/-- A maximum flow on `gCE6` achieving value 7. -/
def fCE6 : List ((String × String) × ℚ) :=
  [(("s_super", "S"), 7), (("S", "C"), 4), (("S", "B"), 3), (("C", "T"), 4),
    (("B", "T"), 3), (("T", "t_super"), 7)]

/-- The oracle answers used for `dCE6` are certified correct: the exhibited
flow is feasible with value 7, and the cut `{s_super, S}` has capacity 7. -/
theorem ce6_oracle_certified :
    build_transformed_graph dCE6 = .ok (gCE6, bdCE6) ∧
    flowFeasibleB gCE6 fCE6 = true ∧ flowValue gCE6 fCE6 = 7 ∧
    cutCapacity gCE6 ["s_super", "S"] = .fin 7 := by
  refine ⟨by rfl, by rfl, by decide, by rfl⟩

/-- Sorted-by-identifier order on edge endpoint pairs. -/
def pairLeB (a b : String × String) : Bool :=
  if a.1 = b.1 then strLeB a.2 b.2 else strLeB a.1 b.1

/-- C6 counterexample: on `dCE6` the result is infeasible and the reported
`tight_edges` list `[(S,C), (S,B)]` is not sorted by identifier (nor is it in
any deduplicated-sorted normal form) — the claim as stated fails. -/
theorem infeasible_cert_sets_ce :
    solve_belts foCE6 coCE6 dCE6 =
      .infeasible ["S"] 3 [] [("S", "C"), ("S", "B")] ∧
    ¬ (([("S", "C"), ("S", "B")] : List (String × String)).Pairwise
        (fun a b => pairLeB a b = true)) := by
  refine ⟨by rfl, by decide⟩

theorem infeasible_tight_from_in_cut_witness :
    TOLERANCE < (3 : ℚ) ∧ ("S" : String) ∈ (["S"] : List String) := by
  have h := infeasible_tight_from_in_cut foCE6 coCE6 dCE6 ["S"] 3 []
    [("S", "C"), ("S", "B")] (by rfl)
  exact ⟨h.1, h.2 (by decide) ("S", "C") (by decide)⟩

theorem infeasible_cert_sets_witness :
    (["A"] : List String).Pairwise (fun a b => strLeB a b = true ∧ a ≠ b) ∧
    ([] : List String).Pairwise (fun a b => strLeB a b = true ∧ a ≠ b) := by
  have h := infeasible_cert_sets foCE4 coCE4 dCE4 ["A"] 2 []
    [("A", "B"), ("s_super", "B")] (by rfl)
  exact ⟨h.1, h.2.1⟩

/-! ### Parallel edges overwrite the transformed capacity (C10) -/

theorem lookupEdge_edgeFoldG (d : BeltsInput) (k : String × String) :
    ∀ (es : List EdgeIn) (g : Graph),
      lookupEdge (edgeFoldG d g es) k =
        (match (es.filter (fun e =>
            decide ((mappedOut d e.src, mappedIn d e.dst) = k))).getLast? with
        | some e => some (derivedCap e)
        | none => lookupEdge g k) := by
  intro es
  induction es with
  | nil => intro g; rfl
  | cons e es ih =>
    intro g
    have hstep : edgeFoldG d g (e :: es) =
        edgeFoldG d
          (addEdge g (mappedOut d e.src, mappedIn d e.dst) (derivedCap e)) es :=
      rfl
    rw [hstep, ih]
    by_cases hk : (mappedOut d e.src, mappedIn d e.dst) = k
    · rw [List.filter_cons_of_pos (by simpa using hk)]
      cases hfe : es.filter (fun e =>
          decide ((mappedOut d e.src, mappedIn d e.dst) = k)) with
      | nil =>
        show lookupEdge
            (addEdge g (mappedOut d e.src, mappedIn d e.dst) (derivedCap e)) k =
          some (derivedCap e)
        rw [← hk]
        exact getEntry_updEntry_self _ _ _
      | cons x xs =>
        rw [List.getLast?_cons_cons]
        cases hgl : (x :: xs).getLast? with
        | none => exact absurd hgl (by simp)
        | some y => rfl
    · rw [List.filter_cons_of_neg (by simpa using hk)]
      cases hfe : es.filter (fun e =>
          decide ((mappedOut d e.src, mappedIn d e.dst) = k)) with
      | nil =>
        show lookupEdge
            (addEdge g (mappedOut d e.src, mappedIn d e.dst) (derivedCap e)) k =
          lookupEdge g k
        exact getEntry_updEntry_ne _ _ _ _ (fun hh => hk hh.symm)
      | cons x xs =>
        cases hgl : (x :: xs).getLast? with
        | none => exact absurd hgl (by simp)
        | some y => rfl

theorem lookupEdge_demandFold (d : BeltsInput) (k : String × String)
    (hk1 : k.1 ≠ "s_super") (hk2 : k.2 ≠ "t_super") :
    ∀ (b : List (String × ℚ)) (g : Graph) (q : ℚ),
      lookupEdge (b.foldl (demandStep d) (g, q)).1 k = lookupEdge g k := by
  intro b
  induction b with
  | nil => intro g q; rfl
  | cons p ps ih =>
    intro g q
    simp only [List.foldl_cons]
    by_cases h1 : TOLERANCE < p.2
    · simp only [demandStep, if_pos h1]
      rw [ih]
      exact getEntry_updEntry_ne _ _ _ _
        (fun hh => hk1 (by rw [hh]))
    · by_cases h2 : p.2 < -TOLERANCE
      · simp only [demandStep, if_neg h1, if_pos h2]
        rw [ih]
        exact getEntry_updEntry_ne _ _ _ _
          (fun hh => hk2 (by rw [hh]))
      · simp only [demandStep, if_neg h1, if_neg h2]
        exact ih g q

theorem lookupEdge_sourceFold (d : BeltsInput) (k : String × String)
    (hk1 : k.1 ≠ "s_super") :
    ∀ (ss : List (String × ℚ)) (g : Graph) (q : ℚ),
      lookupEdge (ss.foldl (sourceStep d) (g, q)).1 k = lookupEdge g k := by
  intro ss
  induction ss with
  | nil => intro g q; rfl
  | cons p ps ih =>
    intro g q
    simp only [List.foldl_cons, sourceStep]
    rw [ih]
    exact getEntry_updEntry_ne _ _ _ _ (fun hh => hk1 (by rw [hh]))

theorem getEntry_cons_ne {κ β : Type} [DecidableEq κ] (p : κ × β)
    (ps : List (κ × β)) (k : κ) (h : p.1 ≠ k) :
    getEntry (p :: ps) k = getEntry ps k := by
  simp [getEntry, h]

theorem lookupEdge_addEdge_ne (g : Graph) (k k' : String × String) (c : Cap)
    (h : k' ≠ k) : lookupEdge (addEdge g k c) k' = lookupEdge g k' :=
  getEntry_updEntry_ne g k k' c h

theorem mem_keys_updEntry {κ β : Type} [DecidableEq κ] :
    ∀ (m : List (κ × β)) (k : κ) (v : β) (a : κ),
      (a ∈ (updEntry m k v).map Prod.fst ↔ a ∈ m.map Prod.fst ∨ a = k) := by
  intro m
  induction m with
  | nil => intro k v a; simp [updEntry]
  | cons p ps ih =>
    intro k v a
    by_cases h : p.1 = k
    · simp only [updEntry, if_pos h, List.map_cons, List.mem_cons]
      rw [h]
      tauto
    · simp only [updEntry, if_neg h, List.map_cons, List.mem_cons, ih]
      tauto

theorem updEntry_keysNodup {κ β : Type} [DecidableEq κ] :
    ∀ (m : List (κ × β)) (k : κ) (v : β),
      (m.map Prod.fst).Nodup → ((updEntry m k v).map Prod.fst).Nodup := by
  intro m
  induction m with
  | nil => intro k v _; simp [updEntry]
  | cons p ps ih =>
    intro k v h
    simp only [List.map_cons, List.nodup_cons] at h
    by_cases hp : p.1 = k
    · simp only [updEntry, if_pos hp, List.map_cons, List.nodup_cons]
      exact ⟨by rw [← hp]; exact h.1, h.2⟩
    · simp only [updEntry, if_neg hp, List.map_cons, List.nodup_cons]
      refine ⟨?_, ih k v h.2⟩
      rw [mem_keys_updEntry]
      rintro (hmem | hk)
      · exact h.1 hmem
      · exact hp hk

theorem foldl_graph_nodup {α : Type} (step : Graph → α → Graph)
    (hstep : ∀ g a, (g.map Prod.fst).Nodup → ((step g a).map Prod.fst).Nodup) :
    ∀ (l : List α) (g : Graph),
      (g.map Prod.fst).Nodup → ((l.foldl step g).map Prod.fst).Nodup := by
  intro l
  induction l with
  | nil => intro g h; exact h
  | cons a as ih =>
    intro g h
    simp only [List.foldl_cons]
    exact ih _ (hstep g a h)

theorem foldl_graphPair_nodup {α : Type} (step : Graph × ℚ → α → Graph × ℚ)
    (hstep : ∀ gq a, (gq.1.map Prod.fst).Nodup →
      ((step gq a).1.map Prod.fst).Nodup) :
    ∀ (l : List α) (gq : Graph × ℚ),
      (gq.1.map Prod.fst).Nodup → (((l.foldl step gq).1).map Prod.fst).Nodup := by
  intro l
  induction l with
  | nil => intro gq h; exact h
  | cons a as ih =>
    intro gq h
    simp only [List.foldl_cons]
    exact ih _ (hstep gq a h)

theorem build_keysNodup (d : BeltsInput) (g : Graph) (bd : BuildData)
    (hb : build_transformed_graph d = .ok (g, bd)) :
    (g.map Prod.fst).Nodup := by
  obtain ⟨s, st, hsk, hne, hpe, hg, hbd⟩ := build_ok_shape d g bd hb
  have hg1 : (((cappedList d).foldl
      (fun g p => addEdge g (p.1 ++ "_in", p.1 ++ "_out") (.fin p.2))
      ([] : Graph)).map Prod.fst).Nodup := by
    apply foldl_graph_nodup
    · intro g' a h
      exact updEntry_keysNodup g' _ _ h
    · simp
  have hst : (st.g.map Prod.fst).Nodup := by
    rw [(processEdges_ok d d.edges _ st hpe).2.1]
    apply foldl_graph_nodup
    · intro g' e h
      exact updEntry_keysNodup g' _ _ h
    · exact hg1
  have hdm : ((st.bal.foldl (demandStep d) (st.g, 0)).1.map Prod.fst).Nodup := by
    apply foldl_graphPair_nodup
    · intro gq p h
      unfold demandStep
      by_cases h1 : TOLERANCE < p.2
      · rw [if_pos h1]
        exact updEntry_keysNodup gq.1 _ _ h
      · rw [if_neg h1]
        by_cases h2 : p.2 < -TOLERANCE
        · rw [if_pos h2]
          exact updEntry_keysNodup gq.1 _ _ h
        · rw [if_neg h2]
          exact h
    · exact hst
  have hsm : ((d.sources.foldl (sourceStep d)
      ((st.bal.foldl (demandStep d) (st.g, 0)).1, 0)).1.map Prod.fst).Nodup := by
    apply foldl_graphPair_nodup
    · intro gq p h
      exact updEntry_keysNodup gq.1 _ _ h
    · exact hdm
  rw [hg]
  exact updEntry_keysNodup _ _ _ hsm

theorem filter_key_nil (k : String × String) :
    ∀ (g : Graph), k ∉ g.map Prod.fst →
      g.filter (fun e => decide (e.1 = k)) = [] := by
  intro g
  induction g with
  | nil => intro _; rfl
  | cons e es ih =>
    intro h
    simp only [List.map_cons, List.mem_cons, not_or] at h
    rw [List.filter_cons_of_neg (by simpa using fun hh => h.1 hh.symm)]
    exact ih h.2

theorem filter_key_length_one :
    ∀ (g : Graph) (k : String × String) (c : Cap),
      (g.map Prod.fst).Nodup → lookupEdge g k = some c →
      (g.filter (fun e => decide (e.1 = k))).length = 1 := by
  intro g
  induction g with
  | nil => intro k c _ hl; cases hl
  | cons e es ih =>
    intro k c hn hl
    simp only [List.map_cons, List.nodup_cons] at hn
    by_cases h : e.1 = k
    · rw [List.filter_cons_of_pos (by simpa using h)]
      rw [filter_key_nil k es (by rw [← h]; exact hn.1)]
      rfl
    · rw [List.filter_cons_of_neg (by simpa using h)]
      apply ih k c hn.2
      unfold lookupEdge at hl
      rw [getEntry_cons_ne e es k h] at hl
      exact hl

/-- C10 amended: when two or more input edges share the same `from` and `to`,
then — provided no original node identifier collides with the reserved
`s_super`/`t_super` names or a facet name of a capped node (`NamesOk`) — the
transformed graph holds exactly one edge between their mapped facets, its
capacity is the derived capacity of the last such input edge (earlier parallel
edges are overwritten, not summed), and on success the reconstructor reports
each parallel edge from the same transformed-edge flow plus that edge's own
lower bound. -/
theorem parallel_edges_overwrite (d : BeltsInput) (g : Graph) (bd : BuildData)
    (u₀ v₀ : String) (elast : EdgeIn) (fd : FlowDict)
    (hn : NamesOk d)
    (hb : build_transformed_graph d = .ok (g, bd))
    (hpar : 2 ≤ (d.edges.filter (fun e => decide (e.src = u₀ ∧ e.dst = v₀))).length)
    (hlast : (d.edges.filter
      (fun e => decide (e.src = u₀ ∧ e.dst = v₀))).getLast? = some elast) :
    lookupEdge g (mappedOut d u₀, mappedIn d v₀) = some (derivedCap elast) ∧
    (g.filter (fun e =>
      decide (e.1 = (mappedOut d u₀, mappedIn d v₀)))).length = 1 ∧
    (∀ e ∈ d.edges.filter (fun e => decide (e.src = u₀ ∧ e.dst = v₀)),
      ((u₀, v₀), (mappedOut d u₀, mappedIn d v₀), e.lower) ∈ bd.original_edges ∧
      (TOLERANCE < getFlow fd (mappedOut d u₀) (mappedIn d v₀) + e.lower →
        (u₀, v₀, getFlow fd (mappedOut d u₀) (mappedIn d v₀) + e.lower) ∈
          reconFlows fd bd.original_edges)) := by
  obtain ⟨hsup, hinjOut, hinjIn, hcross⟩ := hn
  -- the matching set is nonempty, so u₀, v₀ are nodes of the instance
  have hnonnil : d.edges.filter (fun e => decide (e.src = u₀ ∧ e.dst = v₀)) ≠ [] := by
    intro hcon
    rw [hcon] at hpar
    simp at hpar
  obtain ⟨e₀, he₀⟩ := List.exists_mem_of_ne_nil _ hnonnil
  obtain ⟨he₀m, he₀p⟩ := List.mem_filter.1 he₀
  have he₀eq : e₀.src = u₀ ∧ e₀.dst = v₀ := by simpa using he₀p
  have hu : u₀ ∈ allNodes d := by
    rw [← he₀eq.1]
    exact (edge_endpoints_mem_allNodes d e₀ he₀m).1
  have hv : v₀ ∈ allNodes d := by
    rw [← he₀eq.2]
    exact (edge_endpoints_mem_allNodes d e₀ he₀m).2
  have hk1 : mappedOut d u₀ ≠ "s_super" := (hsup u₀ hu).1
  have hk2 : mappedIn d v₀ ≠ "t_super" := (hsup v₀ hv).2.2.2
  -- the two filters coincide under name hygiene
  have hfeq : d.edges.filter (fun e =>
        decide ((mappedOut d e.src, mappedIn d e.dst) =
          (mappedOut d u₀, mappedIn d v₀))) =
      d.edges.filter (fun e => decide (e.src = u₀ ∧ e.dst = v₀)) := by
    apply List.filter_congr
    intro e he
    apply decide_eq_decide.2
    constructor
    · intro hpair
      have h1 : mappedOut d e.src = mappedOut d u₀ := congrArg Prod.fst hpair
      have h2 : mappedIn d e.dst = mappedIn d v₀ := congrArg Prod.snd hpair
      exact ⟨hinjOut e.src (edge_endpoints_mem_allNodes d e he).1 u₀ hu h1,
        hinjIn e.dst (edge_endpoints_mem_allNodes d e he).2 v₀ hv h2⟩
    · intro hsd
      rw [hsd.1, hsd.2]
  obtain ⟨s, st, hsk, hne, hpe, hg, hbd⟩ := build_ok_shape d g bd hb
  have hoes : bd.original_edges = d.edges.map (mkRecord d) := by
    rw [hbd]
    have hrec := (processEdges_ok d d.edges _ st hpe).1
    simpa using hrec
  have hstg : st.g = edgeFoldG d
      ((cappedList d).foldl
        (fun g p => addEdge g (p.1 ++ "_in", p.1 ++ "_out") (.fin p.2)) [])
      d.edges :=
    (processEdges_ok d d.edges _ st hpe).2.1
  have hlook : lookupEdge g (mappedOut d u₀, mappedIn d v₀) =
      some (derivedCap elast) := by
    rw [hg, lookupEdge_addEdge_ne]
    · rw [lookupEdge_sourceFold d _ hk1, lookupEdge_demandFold d _ hk1 hk2,
        hstg, lookupEdge_edgeFoldG, hfeq, hlast]
    · exact fun hh => hk2 (congrArg Prod.snd hh)
  refine ⟨hlook, ?_, ?_⟩
  · exact filter_key_length_one g _ _ (build_keysNodup d g bd hb) hlook
  · intro e he
    obtain ⟨hem, hep⟩ := List.mem_filter.1 he
    have heeq : e.src = u₀ ∧ e.dst = v₀ := by simpa using hep
    have hrecmem : ((u₀, v₀), (mappedOut d u₀, mappedIn d v₀), e.lower) ∈
        bd.original_edges := by
      rw [hoes]
      apply List.mem_map.2
      refine ⟨e, hem, ?_⟩
      unfold mkRecord
      rw [heeq.1, heeq.2]
    refine ⟨hrecmem, fun hgt => ?_⟩
    exact mem_reconFlows_of_gt fd bd.original_edges
      ((u₀, v₀), (mappedOut d u₀, mappedIn d v₀), e.lower) hrecmem hgt

/-- Witness instance for C10: two parallel `A -> B` edges. -/
def dPar : BeltsInput :=
  ⟨[("A", 10)], some "B",
    [⟨"A", "B", 0, .fin 4⟩, ⟨"A", "B", 1, .fin 6⟩], []⟩

/-- The transformed graph built from `dPar`: one `A -> B` edge of capacity 5
(the second input edge's `upper - lower`), not 4 and not a sum. -/
def gPar : Graph :=
  [(("A", "B"), .fin 5), (("A", "t_super"), .fin 1), (("s_super", "B"), .fin 1),
    (("s_super", "A"), .fin 10), (("B", "t_super"), .fin 10)]

/-- The bookkeeping built from `dPar`: both parallel edges are recorded. -/
def bdPar : BuildData :=
  ⟨11, 10, [(("A", "B"), ("A", "B"), 0), (("A", "B"), ("A", "B"), 1)], [],
    [("A", "A"), ("B", "B"), ("s_super", "s_super"), ("t_super", "t_super")]⟩

/-- The last parallel edge of `dPar`. -/
def eParLast : EdgeIn := ⟨"A", "B", 1, .fin 6⟩

/-- The capacity the built graph assigns to a transformed edge key. -/
def builtEdgeCap (d : BeltsInput) (k : String × String) : Option Cap :=
  match build_transformed_graph d with
  | .ok (g, _) => lookupEdge g k
  | .error _ => none

/-- The C10 counterexample instance: two parallel edges out of a node
literally named `s_super`, whose forced lower bound makes the later
supersource demand edge overwrite the transformed capacity. -/
def dCE10 : BeltsInput :=
  ⟨[], some "B", [⟨"s_super", "B", 0, .fin 4⟩, ⟨"s_super", "B", 1, .fin 6⟩], []⟩

/-- C10 counterexample: on `dCE10` the last parallel `s_super -> B` edge has
derived capacity 5, but graph construction leaves the transformed edge with
capacity 1 (the demand edge for node `B` overwrites it afterwards), so the
claim as stated fails without the reserved-name proviso. -/
theorem parallel_edges_overwrite_ce :
    2 ≤ (dCE10.edges.filter
      (fun e => decide (e.src = "s_super" ∧ e.dst = "B"))).length ∧
    (dCE10.edges.filter
      (fun e => decide (e.src = "s_super" ∧ e.dst = "B"))).getLast? =
        some ⟨"s_super", "B", 1, .fin 6⟩ ∧
    derivedCap ⟨"s_super", "B", 1, .fin 6⟩ = Cap.fin 5 ∧
    builtEdgeCap dCE10 (mappedOut dCE10 "s_super", mappedIn dCE10 "B") =
      some (Cap.fin 1) ∧
    Cap.fin 1 ≠ Cap.fin 5 := by
  refine ⟨by decide, by decide, by rfl, by rfl, by decide⟩

theorem parallel_edges_overwrite_witness :
    lookupEdge gPar (mappedOut dPar "A", mappedIn dPar "B") =
      some (derivedCap eParLast) ∧
    (gPar.filter (fun e =>
      decide (e.1 = (mappedOut dPar "A", mappedIn dPar "B")))).length = 1 := by
  have h := parallel_edges_overwrite dPar gPar bdPar "A" "B" eParLast []
    (by decide) (by rfl) (by decide) (by decide)
  exact ⟨h.1, h.2.1⟩

end Belts
